import Mathlib

/-!
Shallow embedding of the voice-command matching core of BrailleWalk
(`src/utils/fuzzyMatch.ts` and `src/utils/commandMatcher.ts`).

Strings are modelled as `List Char` (JS strings over the ASCII range the
catalogs and inputs use); JS numbers that carry similarity scores are
modelled as `ℚ` (the computations are exact sums/divisions of small
integers, so rational arithmetic reproduces them).
-/

namespace BrailleWalk

/- Batteries marks the `Rat` arithmetic operations `@[irreducible]`, which
blocks `decide`-style evaluation of concrete similarity scores; restore the
default reducibility inside this development. -/
attribute [local semireducible] Rat.sub Rat.add Rat.mul Rat.inv

/-- JS whitespace class `\s` restricted to the ASCII range
(space, tab, line feed, vertical tab, form feed, carriage return). -/
def isWsChar (c : Char) : Bool :=
  c = ' ' || c = '\t' || c = '\n' || c = '\x0b' || c = '\x0c' || c = '\r'

/-- JS regex word-character class `[A-Za-z0-9_]` (used by `\b`). -/
def isWordChar (c : Char) : Bool :=
  (65 ≤ c.toNat && c.toNat ≤ 90) || (97 ≤ c.toNat && c.toNat ≤ 122) ||
  (48 ≤ c.toNat && c.toNat ≤ 57) || c = '_'

/-- JS `String.prototype.toLowerCase` on one ASCII character: A–Z map down by 32. -/
def lowerChar (c : Char) : Char :=
  if 65 ≤ c.toNat && c.toNat ≤ 90 then Char.ofNat (c.toNat + 32) else c

/-- JS `String.prototype.toLowerCase` over the whole string. -/
def toLowerStr (s : List Char) : List Char := s.map lowerChar

/-- JS `String.prototype.trim`: drop leading and trailing whitespace. -/
def trimStr (s : List Char) : List Char :=
  ((s.dropWhile isWsChar).reverse.dropWhile isWsChar).reverse

/-- Worker for `splitWs`: `prevWs` records whether the previous character was
whitespace (i.e. whether we are inside a separator run), `cur` is the current
word accumulated in reverse. -/
def splitWsGo : Bool → List Char → List Char → List (List Char)
  | _, cur, [] => [cur.reverse]
  | prevWs, cur, c :: cs =>
    if isWsChar c then
      if prevWs then splitWsGo true cur cs
      else cur.reverse :: splitWsGo true [] cs
    else splitWsGo false (c :: cur) cs

/-- JS `str.split(/\s+/)`: split on maximal whitespace runs.  Faithful to the
JS quirks: a leading separator contributes an empty first piece, a trailing
separator an empty last piece, and the empty string splits to `[""]`. -/
def splitWs (s : List Char) : List (List Char) := splitWsGo false [] s

/-- `String` literal to character-list shorthand used by concrete witnesses. -/
def strL (s : String) : List Char := s.data

/-- Row 0 of the Levenshtein grid never depends on the strings; row `i+1` at
column 0 is `i+1`, and at column `j+1` it is the three-way minimum of the
cell above, the cell to the left, and the diagonal cell plus the
substitution cost — exactly the fill loop of `levenshteinDistance` in
`fuzzyMatch.ts`.  `prev` is row `i` as a function of the column index and
`cost j` is the substitution cost at column `j+1` of this row. -/
def levRowSucc (i : Nat) (prev : Nat → Nat) (cost : Nat → Nat) : Nat → Nat
  | 0 => i + 1
  | j + 1 =>
    min (prev (j + 1) + 1)
      (min (levRowSucc i prev cost j + 1) (prev j + cost j))

/-- The dynamic-programming grid of `levenshteinDistance`:
`levRow s1 s2 i j` is `matrix[i][j]` for the strings `s1`, `s2`. -/
def levRow (s1 s2 : List Char) : Nat → Nat → Nat
  | 0 => fun j => j
  | i + 1 =>
    levRowSucc i (levRow s1 s2 i)
      (fun j => if s1.get? i = s2.get? j then 0 else 1)

/-- `levenshteinDistance` of `fuzzyMatch.ts`: the bottom-right grid cell. -/
def levenshteinDistance (s1 s2 : List Char) : Nat :=
  levRow s1 s2 s1.length s2.length

/-- `similarityScore` of `fuzzyMatch.ts`: `1 - distance/maxLength` over the
lower-cased strings, with the empty/empty case defined as `1`. -/
def similarityScore (s1 s2 : List Char) : ℚ :=
  if max s1.length s2.length = 0 then 1
  else 1 - (levenshteinDistance (toLowerStr s1) (toLowerStr s2) : ℚ) /
    (max s1.length s2.length : ℚ)

/-! ## Sorting

JS `Array.prototype.sort(cmp)` with comparator `(a, b) => b.score - a.score`
is a stable descending sort by score.  The ECMAScript standard fixes the
result (stable, ordered by the comparator) but not the algorithm; we model it
as a stable insertion sort keyed by a score projection `f`. -/

/-- Insert `x` in front of the first element whose key is `≤ f x`
(so among equal keys, the earlier-listed element stays first). -/
def insertDescBy {α : Type} (f : α → ℚ) (x : α) : List α → List α
  | [] => [x]
  | y :: ys => if f y ≤ f x then x :: y :: ys else y :: insertDescBy f x ys

/-- Stable sort, descending by the key `f`. -/
def sortDescBy {α : Type} (f : α → ℚ) : List α → List α
  | [] => []
  | x :: xs => insertDescBy f x (sortDescBy f xs)

/-! ## `fuzzyMatch.ts` -/

/-- One entry of the `scores` array that `findBestMatch` builds:
`{ option, score }`. -/
structure ScoredOption where
  option : List Char
  score : ℚ
deriving DecidableEq, Repr

/-- Result record of `findBestMatch` (source fields `match`, `score`,
`allMatches`; `match` is a Lean keyword, so the field is named `best`). -/
structure BestMatchResult where
  best : Option (List Char)
  score : ℚ
  allMatches : List ScoredOption
deriving DecidableEq, Repr

/-- `findBestMatch` of `fuzzyMatch.ts`: score every option against the
normalized input, sort descending (stable), return the top option when it
clears the threshold, and filter the scored list by the threshold. -/
def findBestMatch (input : List Char) (options : List (List Char))
    (threshold : ℚ) : BestMatchResult :=
  let normalizedInput := trimStr (toLowerStr input)
  let scores := options.map fun option =>
    ScoredOption.mk option (similarityScore normalizedInput (toLowerStr option))
  let sorted := sortDescBy ScoredOption.score scores
  match sorted.head? with
  | some bestMatch =>
    if threshold ≤ bestMatch.score then
      ⟨some bestMatch.option, bestMatch.score,
        sorted.filter fun s => threshold ≤ s.score⟩
    else ⟨none, 0, sorted.filter fun s => threshold ≤ s.score⟩
  | none => ⟨none, 0, sorted.filter fun s => threshold ≤ s.score⟩

/-- Result record of `containsFuzzy`. -/
structure ContainsFuzzyResult where
  found : Bool
  matchedWord : Option (List Char)
  score : ℚ
deriving DecidableEq, Repr

/-- Inner loop of `containsFuzzy`: first target whose similarity with the
word `w` reaches the threshold, together with that score. -/
def cfInner (w : List Char) (threshold : ℚ) :
    List (List Char) → Option (List Char × ℚ)
  | [] => none
  | target :: targets =>
    let score := similarityScore w (toLowerStr target)
    if threshold ≤ score then some (target, score)
    else cfInner w threshold targets

/-- Outer loop of `containsFuzzy` over the input's words. -/
def cfOuter (threshold : ℚ) (targets : List (List Char)) :
    List (List Char) → Option (List Char × ℚ)
  | [] => none
  | w :: ws =>
    match cfInner w threshold targets with
    | some hit => some hit
    | none => cfOuter threshold targets ws

/-- `containsFuzzy` of `fuzzyMatch.ts`: split the lower-cased input on
whitespace and return the first (word, target) pair at or above the
threshold, scanning words in the outer loop and targets in the inner one. -/
def containsFuzzy (input : List Char) (targets : List (List Char))
    (threshold : ℚ) : ContainsFuzzyResult :=
  match cfOuter threshold targets (splitWs (toLowerStr input)) with
  | some (target, score) => ⟨true, some target, score⟩
  | none => ⟨false, none, 0⟩

/-! ### `normalizePhonetic`

Each JS `replace` call is one full left-to-right pass over its input; the
word-boundary patterns `\br`, `\bl`, `\bv`, `\bb` match a single character
preceded by a non-word character (or the start of the string), `th` is a
plain substring pattern, and `a+` … `u+` match maximal runs of one vowel. -/

/-- One pass of `text.replace(/\bc/g, rep)`: replace every occurrence of the
word character `c` that sits at a word boundary.  `prevWord` tracks whether
the previous input character was a word character. -/
def replaceBoundary (c : Char) (rep : List Char) : Bool → List Char → List Char
  | _, [] => []
  | prevWord, x :: xs =>
    (if x = c && !prevWord then rep else [x]) ++
      replaceBoundary c rep (isWordChar x) xs

/-- One pass of `text.replace(/th/g, "[thd]")`: non-overlapping left-to-right
substring replacement. -/
def replaceTh : List Char → List Char
  | 't' :: 'h' :: xs => strL "[thd]" ++ replaceTh xs
  | x :: xs => x :: replaceTh xs
  | [] => []

/-- One pass of `text.replace(/c+/g, rep)`: collapse each maximal run of the
character `c` into `rep`.  `inRun` tracks whether the previous input
character was `c`. -/
def replaceRun (c : Char) (rep : List Char) : Bool → List Char → List Char
  | _, [] => []
  | inRun, x :: xs =>
    (if x = c then (if inRun then [] else rep) else [x]) ++
      replaceRun c rep (x = c) xs

/-- `normalizePhonetic` of `fuzzyMatch.ts`: lower-case, then apply the ten
replacement passes in source order (r/l and v/b word-initial classes, the
`th` class, then vowel-run collapsing). -/
def normalizePhonetic (text : List Char) : List Char :=
  let n0 := toLowerStr text
  let n1 := replaceBoundary 'r' (strL "[rl]") false n0
  let n2 := replaceBoundary 'l' (strL "[rl]") false n1
  let n3 := replaceTh n2
  let n4 := replaceBoundary 'v' (strL "[vb]") false n3
  let n5 := replaceBoundary 'b' (strL "[vb]") false n4
  let n6 := replaceRun 'a' (strL "a+") false n5
  let n7 := replaceRun 'e' (strL "e+") false n6
  let n8 := replaceRun 'i' (strL "i+") false n7
  let n9 := replaceRun 'o' (strL "o+") false n8
  replaceRun 'u' (strL "u+") false n9

/-- Result record of `fuzzyMatchPhonetic` (source fields `match`, `score`;
`match` is a Lean keyword, so the field is named `matched`). -/
structure FuzzyPhoneticResult where
  matched : Bool
  score : ℚ
deriving DecidableEq, Repr

/-- `fuzzyMatchPhonetic` of `fuzzyMatch.ts`: plain similarity first, returned
as-is when it clears the threshold; otherwise the phonetic similarity decides
the flag and the score is the max of the two. -/
def fuzzyMatchPhonetic (input target : List Char) (threshold : ℚ) :
    FuzzyPhoneticResult :=
  let exactScore := similarityScore input target
  if threshold ≤ exactScore then ⟨true, exactScore⟩
  else
    let phoneticScore :=
      similarityScore (normalizePhonetic input) (normalizePhonetic target)
    ⟨threshold ≤ phoneticScore, max exactScore phoneticScore⟩

/-! ## `commandMatcher.ts` -/

/-- `CommandMatch` of `commandMatcher.ts`.  The optional `suggestions` field
exists on the interface but is never assigned by the modelled functions. -/
structure CommandMatch where
  command : List Char
  confidence : ℚ
  matchedPhrase : List Char
  suggestions : Option (List (List Char)) := none
deriving DecidableEq, Repr

/-- `CommandDefinition` of `commandMatcher.ts`. -/
structure CommandDefinition where
  command : List Char
  aliases : List (List Char)
  description : List Char := []
deriving DecidableEq, Repr

/-- Stage 1 of `matchCommand`: first (command, alias) pair in scan order whose
lower-cased alias equals the normalized input; confidence `1.0`. -/
def exactStage (normalizedInput : List Char) :
    List CommandDefinition → Option CommandMatch
  | [] => none
  | cmd :: rest =>
    match cmd.aliases.find? (fun al => normalizedInput = toLowerStr al) with
    | some al => some ⟨cmd.command, 1, al, none⟩
    | none => exactStage normalizedInput rest

/-- Word-overlap ratio used by stage 2 of `matchCommand`:
`|words(input) ∩ words(alias)| / max(|words(input)|, |words(alias)|)`. -/
def overlapRatioQ (words aliasWords : List (List Char)) : ℚ :=
  ((words.filter fun w => w ∈ aliasWords).length : ℚ) /
    (max words.length aliasWords.length : ℚ)

/-- JS `hay.includes(needle)`: `needle` occurs as a contiguous substring of
`hay` (the empty needle always occurs). -/
def containsSub (needle : List Char) : List Char → Bool
  | [] => needle.isEmpty
  | c :: t => needle.isPrefixOf (c :: t) || containsSub needle t

/-- Stage-2 test for one alias: substring containment in either direction and
an overlap ratio strictly above `0.5`. -/
def containsCond (normalizedInput : List Char) (al : List Char) : Bool :=
  let aliasLower := toLowerStr al
  (containsSub aliasLower normalizedInput || containsSub normalizedInput aliasLower)
    && decide ((1 : ℚ)/2 < overlapRatioQ (splitWs normalizedInput) (splitWs aliasLower))

/-- Stage 2 of `matchCommand`: first (command, alias) pair in scan order that
passes `containsCond`; fixed confidence `0.9`. -/
def containsStage (normalizedInput : List Char) :
    List CommandDefinition → Option CommandMatch
  | [] => none
  | cmd :: rest =>
    match cmd.aliases.find? (containsCond normalizedInput) with
    | some al => some ⟨cmd.command, 9/10, al, none⟩
    | none => containsStage normalizedInput rest

/-- The (command id, alias) pairs of a catalog in the nested-loop scan order
shared by stages 3 and 4 and by `getSuggestions`. -/
def cmdAliasPairs (commands : List CommandDefinition) :
    List (List Char × List Char) :=
  commands.flatMap fun cmd => cmd.aliases.map fun al => (cmd.command, al)

/-- The `(bestMatch, bestScore)` state threaded through stages 3 and 4. -/
abbrev BestState := Option CommandMatch × ℚ

/-- One stage-3 step: take the phonetic fuzzy match and update the state when
the result matched and strictly beats the best score so far. -/
def fuzzyStep (normalizedInput : List Char) (threshold : ℚ)
    (st : BestState) (p : List Char × List Char) : BestState :=
  let result := fuzzyMatchPhonetic normalizedInput p.2 threshold
  if result.matched && decide (st.2 < result.score) then
    (some ⟨p.1, result.score, p.2, none⟩, result.score)
  else st

/-- Stage 3 of `matchCommand`: fold `fuzzyStep` over all (command, alias)
pairs, starting from `(null, 0)`. -/
def fuzzyStage (normalizedInput : List Char)
    (commands : List CommandDefinition) (threshold : ℚ) : BestState :=
  (cmdAliasPairs commands).foldl (fuzzyStep normalizedInput threshold) (none, 0)

/-- One stage-4 step for a fixed (command, alias) pair: test one input word
against the alias's words with `containsFuzzy` and update the state when the
word matched and strictly beats the best score so far. -/
def wordStep (threshold : ℚ) (p : List Char × List Char)
    (st : BestState) (inputWord : List Char) : BestState :=
  let wordMatch := containsFuzzy inputWord (splitWs (toLowerStr p.2)) threshold
  if wordMatch.found && decide (st.2 < wordMatch.score) then
    (some ⟨p.1, wordMatch.score, p.2, none⟩, wordMatch.score)
  else st

/-- Stage 4 of `matchCommand`: continue the stage-3 fold over all
(command, alias) pairs and all input words. -/
def wordStage (normalizedInput : List Char)
    (commands : List CommandDefinition) (threshold : ℚ)
    (st : BestState) : BestState :=
  (cmdAliasPairs commands).foldl
    (fun st' p => (splitWs normalizedInput).foldl (wordStep threshold p) st') st

/-- `matchCommand` of `commandMatcher.ts`: exact match, then containment
match, then the shared fuzzy stages (stage 3 returns immediately when it
found anything; stage 4 runs only otherwise, on the same state). -/
def matchCommand (input : List Char) (commands : List CommandDefinition)
    (threshold : ℚ) : Option CommandMatch :=
  let normalizedInput := trimStr (toLowerStr input)
  match exactStage normalizedInput commands with
  | some m => some m
  | none =>
    match containsStage normalizedInput commands with
    | some m => some m
    | none =>
      let st := fuzzyStage normalizedInput commands threshold
      match st.1 with
      | some m => some m
      | none => (wordStage normalizedInput commands threshold st).1

/-- One `{ alias, score }` entry of the `suggestions` array built by
`getSuggestions`. -/
structure SuggestionEntry where
  aliasText : List Char
  score : ℚ
deriving DecidableEq, Repr

/-- `getSuggestions` of `commandMatcher.ts`: score every alias of every
command with `fuzzyMatchPhonetic` at threshold `0.3`, sort descending by
score (stable), and return the first `maxSuggestions` alias strings. -/
def getSuggestions (input : List Char) (commands : List CommandDefinition)
    (maxSuggestions : Nat) : List (List Char) :=
  let normalizedInput := trimStr (toLowerStr input)
  let suggestions := commands.flatMap fun cmd => cmd.aliases.map fun al =>
    SuggestionEntry.mk al (fuzzyMatchPhonetic normalizedInput al (3/10)).score
  ((sortDescBy SuggestionEntry.score suggestions).take maxSuggestions).map
    SuggestionEntry.aliasText

/-- The call verbs stripped by `matchContactName`, in the order they appear
in the regex alternation `^(call|phone|ring|dial)\s+`. -/
def callVerbs : List (List Char) := [strL "call", strL "phone", strL "ring", strL "dial"]

/-- Try to strip `verb` followed by at least one whitespace character from
the front of `s` (the `\s+` of the regex is greedy). -/
def stripVerb (verb s : List Char) : Option (List Char) :=
  if verb.isPrefixOf s then
    match s.drop verb.length with
    | c :: rest => if isWsChar c then some (rest.dropWhile isWsChar) else none
    | [] => none
  else none

/-- `normalizedInput.replace(/^(call|phone|ring|dial)\s+/i, '')`: remove one
leading call verb (the input is already lower-cased, so the `i` flag is
inert); on no match the string is unchanged. -/
def stripCallVerb (s : List Char) : List Char :=
  match callVerbs.findSome? (fun verb => stripVerb verb s) with
  | some rest => rest
  | none => s

/-- Result record of `matchContactName`. -/
structure ContactMatchResult where
  name : Option (List Char)
  confidence : ℚ
deriving DecidableEq, Repr

/-- `matchContactName` of `commandMatcher.ts`: normalize, strip one call
verb, trim again, and delegate to `findBestMatch`. -/
def matchContactName (input : List Char) (contactNames : List (List Char))
    (threshold : ℚ) : ContactMatchResult :=
  let normalizedInput := trimStr (toLowerStr input)
  let cleanInput := trimStr (stripCallVerb normalizedInput)
  let result := findBestMatch cleanInput contactNames threshold
  ⟨result.best, result.score⟩

/-- Result record of `parseComplexCommand`. -/
structure ComplexCommandResult where
  action : Option (List Char)
  parameter : Option (List Char)
  confidence : ℚ
deriving DecidableEq, Repr

/-- `parseComplexCommand` of `commandMatcher.ts`: resolve the action via
`matchCommand` at threshold `0.65`; on a multi-word input drop every input
word that occurs among the matched alias's words and join the rest with
single spaces (empty remainder becomes `null`). -/
def parseComplexCommand (input : List Char)
    (commands : List CommandDefinition) : ComplexCommandResult :=
  let normalizedInput := trimStr (toLowerStr input)
  match matchCommand normalizedInput commands (65/100) with
  | none => ⟨none, none, 0⟩
  | some actionMatch =>
    let words := splitWs normalizedInput
    if 1 < words.length then
      let actionWords := splitWs (toLowerStr actionMatch.matchedPhrase)
      let parameterWords := words.filter fun w => ¬ (w ∈ actionWords)
      let parameter := List.intercalate (strL " ") parameterWords
      ⟨some actionMatch.command,
        (if parameter = [] then none else some parameter),
        actionMatch.confidence⟩
    else ⟨some actionMatch.command, none, actionMatch.confidence⟩

/-! ## Lemmas about the Levenshtein grid -/

theorem levRow_zero (s1 s2 : List Char) (j : Nat) : levRow s1 s2 0 j = j := rfl

theorem levRow_zero_right (s1 s2 : List Char) : ∀ i, levRow s1 s2 i 0 = i := by
  intro i
  cases i <;> rfl

theorem levRow_succ_succ (s1 s2 : List Char) (i j : Nat) :
    levRow s1 s2 (i + 1) (j + 1) =
      min (levRow s1 s2 i (j + 1) + 1)
        (min (levRow s1 s2 (i + 1) j + 1)
          (levRow s1 s2 i j + if s1.get? i = s2.get? j then 0 else 1)) := rfl

/-- Every grid cell is at most the larger of its two indices (a string of
length `i` turns into a string of length `j` with `max i j` edits). -/
theorem levRow_le_max (s1 s2 : List Char) : ∀ i j, levRow s1 s2 i j ≤ max i j := by
  intro i
  induction i with
  | zero => intro j; rw [levRow_zero]; omega
  | succ i ih =>
    intro j
    cases j with
    | zero => rw [levRow_zero_right]; omega
    | succ j =>
      rw [levRow_succ_succ]
      have h1 := ih j
      have h2 : (if s1.get? i = s2.get? j then 0 else 1) ≤ 1 := by
        split <;> omega
      omega

/-- The grid is symmetric: swapping the strings and transposing the indices
gives the same value (the substitution costs transpose and the three-way
minimum is permutation-invariant). -/
theorem levRow_symm (s1 s2 : List Char) :
    ∀ i j, levRow s1 s2 i j = levRow s2 s1 j i := by
  intro i
  induction i with
  | zero => intro j; rw [levRow_zero, levRow_zero_right]
  | succ i ih =>
    intro j
    induction j with
    | zero => rw [levRow_zero_right, levRow_zero]
    | succ j ihj =>
      rw [levRow_succ_succ, levRow_succ_succ]
      rw [ih (j + 1), ih j, ihj]
      have hc : (if s1.get? i = s2.get? j then (0 : Nat) else 1) =
          (if s2.get? j = s1.get? i then (0 : Nat) else 1) := by
        by_cases h : s1.get? i = s2.get? j
        · rw [if_pos h, if_pos h.symm]
        · rw [if_neg h, if_neg (fun h' => h h'.symm)]
      rw [hc]
      omega

/-- C9 auxiliary form: `levenshteinDistance` is symmetric. -/
theorem levenshteinDistance_comm (a b : List Char) :
    levenshteinDistance a b = levenshteinDistance b a :=
  levRow_symm a b a.length b.length

/-- The edit distance is bounded by the longer length. -/
theorem levenshteinDistance_le_max (a b : List Char) :
    levenshteinDistance a b ≤ max a.length b.length :=
  levRow_le_max a b a.length b.length

theorem toLowerStr_length (s : List Char) : (toLowerStr s).length = s.length :=
  List.length_map s lowerChar

theorem similarityScore_nonneg (s1 s2 : List Char) : 0 ≤ similarityScore s1 s2 := by
  rw [similarityScore]
  split
  · norm_num
  · rename_i h
    have hm : (0 : ℚ) < (max s1.length s2.length : ℚ) := by
      have : 0 < max s1.length s2.length := Nat.pos_of_ne_zero h
      exact_mod_cast this
    have hd : levenshteinDistance (toLowerStr s1) (toLowerStr s2) ≤
        max s1.length s2.length := by
      have := levenshteinDistance_le_max (toLowerStr s1) (toLowerStr s2)
      rwa [toLowerStr_length, toLowerStr_length] at this
    have : (levenshteinDistance (toLowerStr s1) (toLowerStr s2) : ℚ) /
        (max s1.length s2.length : ℚ) ≤ 1 := by
      rw [div_le_one hm]
      exact_mod_cast hd
    linarith

theorem similarityScore_le_one (s1 s2 : List Char) : similarityScore s1 s2 ≤ 1 := by
  rw [similarityScore]
  split
  · norm_num
  · rename_i h
    have hm : (0 : ℚ) < (max s1.length s2.length : ℚ) := by
      have : 0 < max s1.length s2.length := Nat.pos_of_ne_zero h
      exact_mod_cast this
    have : (0 : ℚ) ≤ (levenshteinDistance (toLowerStr s1) (toLowerStr s2) : ℚ) /
        (max s1.length s2.length : ℚ) := by positivity
    linarith

/-! ## Lemmas about the stable descending sort -/

theorem perm_insertDescBy {α : Type} (f : α → ℚ) (x : α) :
    ∀ l, (insertDescBy f x l).Perm (x :: l) := by
  intro l
  induction l with
  | nil => exact List.Perm.refl _
  | cons y ys ih =>
    by_cases h : f y ≤ f x
    · rw [insertDescBy, if_pos h]
    · rw [insertDescBy, if_neg h]
      exact (ih.cons y).trans (List.Perm.swap x y ys)

theorem perm_sortDescBy {α : Type} (f : α → ℚ) :
    ∀ l : List α, (sortDescBy f l).Perm l := by
  intro l
  induction l with
  | nil => exact List.Perm.refl _
  | cons x xs ih =>
    rw [sortDescBy]
    exact (perm_insertDescBy f x (sortDescBy f xs)).trans (ih.cons x)

theorem pairwise_insertDescBy {α : Type} (f : α → ℚ) (x : α) :
    ∀ l, l.Pairwise (fun a b => f b ≤ f a) →
      (insertDescBy f x l).Pairwise (fun a b => f b ≤ f a) := by
  intro l
  induction l with
  | nil =>
    intro _
    simp [insertDescBy]
  | cons y ys ih =>
    intro hp
    rw [List.pairwise_cons] at hp
    obtain ⟨hy, hys⟩ := hp
    by_cases h : f y ≤ f x
    · rw [insertDescBy, if_pos h, List.pairwise_cons]
      refine ⟨?_, List.pairwise_cons.mpr ⟨hy, hys⟩⟩
      intro z hz
      rcases List.mem_cons.mp hz with rfl | hz'
      · exact h
      · exact (hy z hz').trans h
    · rw [insertDescBy, if_neg h, List.pairwise_cons]
      refine ⟨?_, ih hys⟩
      intro z hz
      have hz' : z ∈ x :: ys := (perm_insertDescBy f x ys).subset hz
      rcases List.mem_cons.mp hz' with rfl | hz''
      · exact le_of_lt (lt_of_not_le h)
      · exact hy z hz''

theorem pairwise_sortDescBy {α : Type} (f : α → ℚ) :
    ∀ l : List α, (sortDescBy f l).Pairwise (fun a b => f b ≤ f a) := by
  intro l
  induction l with
  | nil => simp [sortDescBy]
  | cons x xs ih => exact pairwise_insertDescBy f x (sortDescBy f xs) ih

/-! ## Fold invariants shared by stages 3 and 4 -/

/-- A predicate preserved by every step of a fold holds of the fold's
result. -/
theorem foldl_preserve {σ α : Type} (P : σ → Prop) (f : σ → α → σ)
    (hf : ∀ s a, P s → P (f s a)) :
    ∀ (l : List α) (s : σ), P s → P (l.foldl f s) := by
  intro l
  induction l with
  | nil => intro s h; exact h
  | cons a l ih => intro s h; exact ih (f s a) (hf s a h)

/-- How one fuzzy-stage state evolves into another: either it is unchanged,
or the new best match is a `some` whose confidence equals the new best score
and strictly exceeds the old best score. -/
def ScoreUpd (s s' : BestState) : Prop :=
  s' = s ∨ ∃ m, s'.1 = some m ∧ s'.2 = m.confidence ∧ s.2 < s'.2

theorem scoreUpd_refl (s : BestState) : ScoreUpd s s := Or.inl rfl

theorem scoreUpd_trans {a b c : BestState} :
    ScoreUpd a b → ScoreUpd b c → ScoreUpd a c := by
  rintro (rfl | ⟨m, h1, h2, h3⟩) hbc
  · exact hbc
  · rcases hbc with rfl | ⟨m', g1, g2, g3⟩
    · exact Or.inr ⟨m, h1, h2, h3⟩
    · exact Or.inr ⟨m', g1, g2, h3.trans g3⟩

theorem foldl_scoreUpd {α : Type} (f : BestState → α → BestState)
    (hf : ∀ s a, ScoreUpd s (f s a)) :
    ∀ (l : List α) (s : BestState), ScoreUpd s (l.foldl f s) := by
  intro l
  induction l with
  | nil => intro s; exact scoreUpd_refl s
  | cons a l ih => intro s; exact scoreUpd_trans (hf s a) (ih (f s a))

theorem fuzzyStep_scoreUpd (n : List Char) (t : ℚ) (s : BestState)
    (p : List Char × List Char) : ScoreUpd s (fuzzyStep n t s p) := by
  rw [fuzzyStep]
  split
  · rename_i h
    rw [Bool.and_eq_true, decide_eq_true_iff] at h
    exact Or.inr ⟨_, rfl, rfl, h.2⟩
  · exact scoreUpd_refl s

theorem wordStep_scoreUpd (t : ℚ) (p : List Char × List Char) (s : BestState)
    (w : List Char) : ScoreUpd s (wordStep t p s w) := by
  rw [wordStep]
  split
  · rename_i h
    rw [Bool.and_eq_true, decide_eq_true_iff] at h
    exact Or.inr ⟨_, rfl, rfl, h.2⟩
  · exact scoreUpd_refl s

theorem fuzzyStage_scoreUpd (n : List Char) (cmds : List CommandDefinition)
    (t : ℚ) : ScoreUpd (none, 0) (fuzzyStage n cmds t) :=
  foldl_scoreUpd _ (fuzzyStep_scoreUpd n t) (cmdAliasPairs cmds) (none, 0)

theorem wordStage_scoreUpd (n : List Char) (cmds : List CommandDefinition)
    (t : ℚ) (s : BestState) : ScoreUpd s (wordStage n cmds t s) :=
  foldl_scoreUpd _
    (fun s' p => foldl_scoreUpd _ (wordStep_scoreUpd t p) (splitWs n) s')
    (cmdAliasPairs cmds) s

/-- A fuzzy-stage state whose best match is still `null` has best score 0. -/
theorem fuzzyStage_none_score (n : List Char) (cmds : List CommandDefinition)
    (t : ℚ) (h : (fuzzyStage n cmds t).1 = none) : (fuzzyStage n cmds t).2 = 0 := by
  rcases fuzzyStage_scoreUpd n cmds t with heq | ⟨m, h1, _, _⟩
  · rw [heq]
  · rw [h] at h1
    exact absurd h1 (by simp)

/-! ## Score bounds of the fuzzy primitives -/

theorem fuzzyMatchPhonetic_score_nonneg (a b : List Char) (t : ℚ) :
    0 ≤ (fuzzyMatchPhonetic a b t).score := by
  rw [fuzzyMatchPhonetic]
  split
  · exact similarityScore_nonneg a b
  · exact le_trans (similarityScore_nonneg a b) (le_max_left _ _)

theorem fuzzyMatchPhonetic_score_le_one (a b : List Char) (t : ℚ) :
    (fuzzyMatchPhonetic a b t).score ≤ 1 := by
  rw [fuzzyMatchPhonetic]
  split
  · exact similarityScore_le_one a b
  · exact max_le (similarityScore_le_one a b) (similarityScore_le_one _ _)

theorem cfInner_score_bounds (w : List Char) (t : ℚ) :
    ∀ targets p, cfInner w t targets = some p → 0 ≤ p.2 ∧ p.2 ≤ 1 := by
  intro targets
  induction targets with
  | nil => intro p h; exact absurd h (by simp [cfInner])
  | cons tg tgs ih =>
    intro p h
    rw [cfInner] at h
    split at h
    · cases h
      exact ⟨similarityScore_nonneg _ _, similarityScore_le_one _ _⟩
    · exact ih p h

theorem cfOuter_score_bounds (t : ℚ) (targets : List (List Char)) :
    ∀ ws p, cfOuter t targets ws = some p → 0 ≤ p.2 ∧ p.2 ≤ 1 := by
  intro ws
  induction ws with
  | nil => intro p h; exact absurd h (by simp [cfOuter])
  | cons w ws ih =>
    intro p h
    rw [cfOuter] at h
    split at h
    · rename_i hit hInner
      cases h
      exact cfInner_score_bounds w t targets _ hInner
    · exact ih p h

theorem containsFuzzy_score_nonneg (input : List Char)
    (targets : List (List Char)) (t : ℚ) :
    0 ≤ (containsFuzzy input targets t).score := by
  rw [containsFuzzy]
  split
  · rename_i tg sc h
    exact (cfOuter_score_bounds t targets _ _ h).1
  · exact le_refl 0

theorem containsFuzzy_score_le_one (input : List Char)
    (targets : List (List Char)) (t : ℚ) :
    (containsFuzzy input targets t).score ≤ 1 := by
  rw [containsFuzzy]
  split
  · rename_i tg sc h
    exact (cfOuter_score_bounds t targets _ _ h).2
  · norm_num

/-! ## Stage 1 and stage 2 lemmas -/

theorem exactStage_confidence (n : List Char) :
    ∀ cmds m, exactStage n cmds = some m → m.confidence = 1 := by
  intro cmds
  induction cmds with
  | nil => intro m h; exact absurd h (by simp [exactStage])
  | cons cmd rest ih =>
    intro m h
    rw [exactStage] at h
    split at h
    · cases h; rfl
    · exact ih m h

/-- If some alias of the catalog equals the normalized input exactly, the
exact-match stage finds a hit. -/
theorem exactStage_isSome (n : List Char) :
    ∀ cmds, (∃ c ∈ cmds, ∃ a ∈ c.aliases, n = toLowerStr a) →
      ∃ m, exactStage n cmds = some m := by
  intro cmds
  induction cmds with
  | nil => rintro ⟨c, hc, -⟩; exact absurd hc (by simp)
  | cons cmd rest ih =>
    rintro ⟨c, hc, a, ha, heq⟩
    rw [exactStage]
    rcases hfind : cmd.aliases.find? (fun al => n = toLowerStr al) with - | m0
    · rcases List.mem_cons.mp hc with rfl | hc'
      · have := List.find?_eq_none.mp hfind a ha
        rw [decide_eq_true_iff] at this
        exact absurd heq this
      · obtain ⟨m, hm⟩ := ih ⟨c, hc', a, ha, heq⟩
        exact ⟨m, by rw [hm]⟩
    · exact ⟨_, rfl⟩

theorem containsStage_confidence (n : List Char) :
    ∀ cmds m, containsStage n cmds = some m → m.confidence = 9/10 := by
  intro cmds
  induction cmds with
  | nil => intro m h; exact absurd h (by simp [containsStage])
  | cons cmd rest ih =>
    intro m h
    rw [containsStage] at h
    split at h
    · cases h; rfl
    · exact ih m h

/-! ## Confidence bounds through the fuzzy stages -/

/-- Invariant of the shared stage-3/4 state: any best match recorded so far
has confidence in `[0, 1]`. -/
def ConfBounds (s : BestState) : Prop :=
  ∀ m, s.1 = some m → 0 ≤ m.confidence ∧ m.confidence ≤ 1

theorem fuzzyStep_confBounds (n : List Char) (t : ℚ) (s : BestState)
    (p : List Char × List Char) (hs : ConfBounds s) :
    ConfBounds (fuzzyStep n t s p) := by
  rw [fuzzyStep]
  split
  · intro m hm
    cases hm
    exact ⟨fuzzyMatchPhonetic_score_nonneg n p.2 t,
      fuzzyMatchPhonetic_score_le_one n p.2 t⟩
  · exact hs

theorem wordStep_confBounds (t : ℚ) (p : List Char × List Char) (s : BestState)
    (w : List Char) (hs : ConfBounds s) : ConfBounds (wordStep t p s w) := by
  rw [wordStep]
  split
  · intro m hm
    cases hm
    exact ⟨containsFuzzy_score_nonneg w _ t, containsFuzzy_score_le_one w _ t⟩
  · exact hs

theorem fuzzyStage_confBounds (n : List Char) (cmds : List CommandDefinition)
    (t : ℚ) : ConfBounds (fuzzyStage n cmds t) :=
  foldl_preserve ConfBounds _ (fun s p => fuzzyStep_confBounds n t s p)
    (cmdAliasPairs cmds) (none, 0) (fun m hm => absurd hm (by simp))

theorem wordStage_confBounds (n : List Char) (cmds : List CommandDefinition)
    (t : ℚ) (s : BestState) (hs : ConfBounds s) :
    ConfBounds (wordStage n cmds t s) :=
  foldl_preserve ConfBounds _
    (fun s' p hp =>
      foldl_preserve ConfBounds _ (fun s'' w => wordStep_confBounds t p s'' w)
        (splitWs n) s' hp)
    (cmdAliasPairs cmds) s hs

/-- Bounds half of the confidence invariant: every match `matchCommand`
returns has confidence in `[0, 1]`. -/
theorem matchCommand_bounds (input : List Char) (cmds : List CommandDefinition)
    (t : ℚ) (m : CommandMatch) (h : matchCommand input cmds t = some m) :
    0 ≤ m.confidence ∧ m.confidence ≤ 1 := by
  simp only [matchCommand] at h
  split at h
  · rename_i x mE hE
    have hm : mE = m := by injection h
    rw [← hm, exactStage_confidence _ cmds mE hE]
    norm_num
  · split at h
    · rename_i x mC hC
      have hm : mC = m := by injection h
      rw [← hm, containsStage_confidence _ cmds mC hC]
      norm_num
    · split at h
      · rename_i x mF hF
        have hm : mF = m := by injection h
        rw [← hm]
        exact fuzzyStage_confBounds _ cmds t mF hF
      · rename_i hF
        exact wordStage_confBounds _ cmds t _ (fuzzyStage_confBounds _ cmds t) m h

/-- Exact-match priority: when some alias equals the normalized input, any
match returned has confidence exactly 1. -/
theorem matchCommand_exact_priority (input : List Char)
    (cmds : List CommandDefinition) (t : ℚ) (m : CommandMatch)
    (hex : ∃ c ∈ cmds, ∃ a ∈ c.aliases, trimStr (toLowerStr input) = toLowerStr a)
    (h : matchCommand input cmds t = some m) : m.confidence = 1 := by
  obtain ⟨mE, hmE⟩ := exactStage_isSome _ cmds hex
  simp only [matchCommand] at h
  split at h
  · rename_i x mE' hE
    have hm : mE' = m := by injection h
    rw [← hm]
    exact exactStage_confidence _ cmds _ hE
  · rename_i x hE
    rw [hE] at hmE
    exact absurd hmE (by simp)

/-! ## Claim theorems -/

/-- C1 (amended): every non-null `matchCommand` result has confidence in
`[0, 1]`, and when the lowercased, trimmed input is exactly equal to some
alias lowercased the confidence is exactly `1.0`.  The converse direction of
the original claim is false (see the counterexample): the stage-3 phonetic
path also reports `1.0` when the phonetic normalizations of a non-identical
input and alias coincide. -/
theorem claim_C1 (input : List Char) (cmds : List CommandDefinition) (t : ℚ)
    (m : CommandMatch) (h : matchCommand input cmds t = some m) :
    (0 ≤ m.confidence ∧ m.confidence ≤ 1) ∧
    ((∃ c ∈ cmds, ∃ a ∈ c.aliases, trimStr (toLowerStr input) = toLowerStr a) →
      m.confidence = 1) :=
  ⟨matchCommand_bounds input cmds t m h,
   fun hex => matchCommand_exact_priority input cmds t m hex h⟩

/-- C1 counterexample: with catalog `[{command: "c", aliases: ["red"]}]` and
threshold `0.7`, the input `"led"` — which is not equal to any alias — is
matched by the phonetic fuzzy stage with confidence exactly `1.0`, because
`normalizePhonetic` maps both `"led"` and `"red"` to `"[rl]e+d"`.  So a
non-exact path can report confidence `1.0`. -/
theorem claim_C1_counterexample :
    matchCommand (strL "led") [⟨strL "c", [strL "red"], []⟩] (7/10) =
      some ⟨strL "c", 1, strL "red", none⟩ ∧
    trimStr (toLowerStr (strL "led")) ≠ toLowerStr (strL "red") := by
  constructor
  · decide
  · decide

/-- C1 witness: the amended theorem applied at the concrete input `"go"`
against a catalog whose alias `"go"` matches exactly. -/
theorem claim_C1_witness :
    matchCommand (strL "go") [⟨strL "nav", [strL "go"], []⟩] (65/100) =
      some ⟨strL "nav", 1, strL "go", none⟩ ∧
    (0 ≤ (CommandMatch.mk (strL "nav") 1 (strL "go") none).confidence ∧
      (CommandMatch.mk (strL "nav") 1 (strL "go") none).confidence ≤ 1) ∧
    (CommandMatch.mk (strL "nav") 1 (strL "go") none).confidence = 1 := by
  have h : matchCommand (strL "go") [⟨strL "nav", [strL "go"], []⟩] (65/100) =
      some ⟨strL "nav", 1, strL "go", none⟩ := by decide
  refine ⟨h, (claim_C1 _ _ _ _ h).1, (claim_C1 _ _ _ _ h).2 ?_⟩
  exact ⟨⟨strL "nav", [strL "go"], []⟩, by simp, strL "go", by simp, by decide⟩

/-- C2: past stages 1 and 2, stages 3 and 4 share one best-so-far tracker:
stage 3's best match, when present, is returned as-is; when stage 3 found
nothing its best score is still 0; and any match produced by the stage-4 path
strictly exceeds the score stage 3 finished with. -/
theorem claim_C2 (input : List Char) (cmds : List CommandDefinition) (t : ℚ)
    (hE : exactStage (trimStr (toLowerStr input)) cmds = none)
    (hC : containsStage (trimStr (toLowerStr input)) cmds = none) :
    (∀ m, (fuzzyStage (trimStr (toLowerStr input)) cmds t).1 = some m →
      matchCommand input cmds t = some m) ∧
    ((fuzzyStage (trimStr (toLowerStr input)) cmds t).1 = none →
      (fuzzyStage (trimStr (toLowerStr input)) cmds t).2 = 0) ∧
    (∀ m, matchCommand input cmds t = some m →
      (fuzzyStage (trimStr (toLowerStr input)) cmds t).1 = some m ∨
        (fuzzyStage (trimStr (toLowerStr input)) cmds t).2 < m.confidence) := by
  refine ⟨?_, fuzzyStage_none_score _ cmds t, ?_⟩
  · intro m hm
    simp only [matchCommand, hE, hC, hm]
  · intro m hmc
    rcases hst : (fuzzyStage (trimStr (toLowerStr input)) cmds t).1 with - | mF
    · right
      simp only [matchCommand, hE, hC, hst] at hmc
      rcases wordStage_scoreUpd (trimStr (toLowerStr input)) cmds t
          (fuzzyStage (trimStr (toLowerStr input)) cmds t) with heq | ⟨m', h1, h2, h3⟩
      · rw [heq, hst] at hmc
        exact absurd hmc (by simp)
      · rw [h1] at hmc
        have hm' : m' = m := by injection hmc
        rw [← hm', ← h2]
        exact h3
    · left
      simp only [matchCommand, hE, hC, hst] at hmc
      exact hmc

/-- C2 witness: with input `"navigat"` and single alias `"navigate"`, stages
1 and 2 fail, stage 3 records the plain fuzzy hit with score `7/8`, and
`matchCommand` returns exactly that match. -/
theorem claim_C2_witness :
    exactStage (trimStr (toLowerStr (strL "navigat")))
      [⟨strL "navigate", [strL "navigate"], []⟩] = none ∧
    containsStage (trimStr (toLowerStr (strL "navigat")))
      [⟨strL "navigate", [strL "navigate"], []⟩] = none ∧
    matchCommand (strL "navigat") [⟨strL "navigate", [strL "navigate"], []⟩]
      (65/100) = some ⟨strL "navigate", 7/8, strL "navigate", none⟩ := by
  have hE : exactStage (trimStr (toLowerStr (strL "navigat")))
      [⟨strL "navigate", [strL "navigate"], []⟩] = none := by decide
  have hC : containsStage (trimStr (toLowerStr (strL "navigat")))
      [⟨strL "navigate", [strL "navigate"], []⟩] = none := by decide
  have hm : (fuzzyStage (trimStr (toLowerStr (strL "navigat")))
      [⟨strL "navigate", [strL "navigate"], []⟩] (65/100)).1 =
      some ⟨strL "navigate", 7/8, strL "navigate", none⟩ := by decide
  exact ⟨hE, hC,
    (claim_C2 (strL "navigat") [⟨strL "navigate", [strL "navigate"], []⟩]
      (65/100) hE hC).1 _ hm⟩

/-- C5: the score reported by `fuzzyMatchPhonetic` is always at least the
plain normalized edit-distance similarity of the two strings. -/
theorem claim_C5 (a b : List Char) (t : ℚ) :
    similarityScore a b ≤ (fuzzyMatchPhonetic a b t).score := by
  rw [fuzzyMatchPhonetic]
  split
  · exact le_refl _
  · exact le_max_left _ _

/-- C9: the dynamic-programming single-character edit distance is symmetric
in its two string arguments. -/
theorem claim_C9 (a b : List Char) :
    levenshteinDistance a b = levenshteinDistance b a :=
  levRow_symm a b a.length b.length

/-! ## `containsFuzzy` as a first-hit scan -/

theorem cfInner_eq_find? (w : List Char) (t : ℚ) :
    ∀ targets, cfInner w t targets =
      ((targets.map fun tg => (w, tg)).find?
          fun p => decide (t ≤ similarityScore p.1 (toLowerStr p.2))).map
        fun p => (p.2, similarityScore p.1 (toLowerStr p.2)) := by
  intro targets
  induction targets with
  | nil => rfl
  | cons tg tgs ih =>
    simp only [cfInner, List.map_cons, List.find?_cons]
    by_cases h : t ≤ similarityScore w (toLowerStr tg)
    · simp [h]
    · simp [h, ih]

theorem cfOuter_eq_find? (t : ℚ) (targets : List (List Char)) :
    ∀ ws, cfOuter t targets ws =
      ((ws.flatMap fun w => targets.map fun tg => (w, tg)).find?
          fun p => decide (t ≤ similarityScore p.1 (toLowerStr p.2))).map
        fun p => (p.2, similarityScore p.1 (toLowerStr p.2)) := by
  intro ws
  induction ws with
  | nil => rfl
  | cons w ws ih =>
    rw [cfOuter, List.flatMap_cons, List.find?_append,
      cfInner_eq_find? w t targets, ih]
    rcases hf : (targets.map fun tg => (w, tg)).find?
        (fun p => decide (t ≤ similarityScore p.1 (toLowerStr p.2)))
      with - | p
    · rw [hf]
      rfl
    · rw [hf]
      rfl

/-- C6: `containsFuzzy` splits the lower-cased input on whitespace and
returns the first (word, target) pair whose similarity reaches the
threshold, scanning input words in the outer loop and targets in the inner
loop (so it is a first-hit scan, not a best-of-all search); with no hit it
returns `{found: false, matchedWord: null, score: 0}`. -/
theorem claim_C6 (input : List Char) (targets : List (List Char)) (t : ℚ) :
    containsFuzzy input targets t =
      match ((splitWs (toLowerStr input)).flatMap
          fun w => targets.map fun tg => (w, tg)).find?
          (fun p => decide (t ≤ similarityScore p.1 (toLowerStr p.2))) with
      | some p => ⟨true, some p.2, similarityScore p.1 (toLowerStr p.2)⟩
      | none => ⟨false, none, 0⟩ := by
  rw [containsFuzzy, cfOuter_eq_find? t targets (splitWs (toLowerStr input))]
  rcases hf : ((splitWs (toLowerStr input)).flatMap
      fun w => targets.map fun tg => (w, tg)).find?
      (fun p => decide (t ≤ similarityScore p.1 (toLowerStr p.2)))
    with - | p
  · rw [hf]
    rfl
  · rw [hf]
    rfl

/-! ## Totality on empty inputs -/

theorem cfOuter_nil_targets (t : ℚ) : ∀ ws, cfOuter t [] ws = none := by
  intro ws
  induction ws with
  | nil => rfl
  | cons w ws ih => rw [cfOuter, cfInner, ih]

/-- C7: the matching core is total and returns null/zero results on empty
catalogs, empty option lists and empty strings: an empty catalog yields no
command match, no suggestions, and an all-null complex parse; an empty
contact list yields a null name with confidence 0; `findBestMatch` over no
options returns null match, score 0 and no `allMatches`; `containsFuzzy`
with no targets finds nothing; the similarity of two empty strings is
defined as `1.0` (and the phonetic score of two empty strings is `1`), and
the distance of two empty strings is 0. -/
theorem claim_C7 :
    (∀ (input : List Char) (t : ℚ), matchCommand input [] t = none) ∧
    (∀ (input : List Char) (n : Nat), getSuggestions input [] n = []) ∧
    (∀ (input : List Char) (t : ℚ),
      matchContactName input [] t = ⟨none, 0⟩) ∧
    (∀ input : List Char, parseComplexCommand input [] = ⟨none, none, 0⟩) ∧
    (∀ (input : List Char) (t : ℚ),
      findBestMatch input [] t = ⟨none, 0, []⟩) ∧
    (∀ (input : List Char) (t : ℚ),
      containsFuzzy input [] t = ⟨false, none, 0⟩) ∧
    similarityScore [] [] = 1 ∧
    (∀ t : ℚ, (fuzzyMatchPhonetic [] [] t).score = 1) ∧
    levenshteinDistance [] [] = 0 := by
  refine ⟨fun input t => rfl, fun input n => by simp [getSuggestions, sortDescBy],
    fun input t => rfl, fun input => rfl, fun input t => rfl, ?_, rfl, ?_, rfl⟩
  · intro input t
    rw [containsFuzzy, cfOuter_nil_targets]
  · intro t
    rw [fuzzyMatchPhonetic]
    split
    · rfl
    · show max (similarityScore [] []) (similarityScore [] []) = 1
      rw [max_self]
      rfl

/-! ## `findBestMatch` characterization -/

/-- The similarity `findBestMatch` computes for one option: normalized input
against the lower-cased option. -/
def scoreAgainst (input option : List Char) : ℚ :=
  similarityScore (trimStr (toLowerStr input)) (toLowerStr option)

/-- The `scores` array `findBestMatch` builds before sorting. -/
def scoresList (input : List Char) (options : List (List Char)) :
    List ScoredOption :=
  options.map fun option => ScoredOption.mk option (scoreAgainst input option)

theorem findBestMatch_eq (input : List Char) (options : List (List Char))
    (t : ℚ) :
    findBestMatch input options t =
      match (sortDescBy ScoredOption.score (scoresList input options)).head? with
      | some b =>
        if t ≤ b.score then
          ⟨some b.option, b.score,
            (sortDescBy ScoredOption.score (scoresList input options)).filter
              fun s => t ≤ s.score⟩
        else
          ⟨none, 0,
            (sortDescBy ScoredOption.score (scoresList input options)).filter
              fun s => t ≤ s.score⟩
      | none =>
        ⟨none, 0,
          (sortDescBy ScoredOption.score (scoresList input options)).filter
            fun s => t ≤ s.score⟩ := rfl

theorem mem_scoresList (input : List Char) (options : List (List Char))
    (s : ScoredOption) :
    s ∈ scoresList input options ↔
      s.option ∈ options ∧ s.score = scoreAgainst input s.option := by
  rw [scoresList, List.mem_map]
  constructor
  · rintro ⟨o, ho, rfl⟩
    exact ⟨ho, rfl⟩
  · rintro ⟨ho, hs⟩
    exact ⟨s.option, ho, by rw [← hs]⟩

/-- The head of the sorted score list belongs to the score list and bounds
every score in it. -/
theorem sorted_head_max (input : List Char) (options : List (List Char))
    (b : ScoredOption)
    (hb : (sortDescBy ScoredOption.score (scoresList input options)).head? =
      some b) :
    b ∈ scoresList input options ∧
      ∀ s ∈ scoresList input options, s.score ≤ b.score := by
  have hperm := perm_sortDescBy ScoredOption.score (scoresList input options)
  have hpair := pairwise_sortDescBy ScoredOption.score (scoresList input options)
  rcases hsort : sortDescBy ScoredOption.score (scoresList input options)
    with - | ⟨b', rest⟩
  · rw [hsort] at hb
    exact absurd hb (by simp)
  · rw [hsort] at hb hperm hpair
    have hb' : b' = b := by injection hb
    subst hb'
    rw [List.pairwise_cons] at hpair
    constructor
    · exact hperm.subset (List.mem_cons_self b' rest)
    · intro s hs
      have : s ∈ b' :: rest := hperm.symm.subset hs
      rcases List.mem_cons.mp this with rfl | hs'
      · exact le_refl _
      · exact hpair.1 s hs'

/-- When every option scores strictly below the threshold, `findBestMatch`
returns a null match with score 0. -/
theorem findBestMatch_below_threshold (input : List Char)
    (options : List (List Char)) (t : ℚ)
    (hbelow : ∀ o ∈ options, scoreAgainst input o < t) :
    (findBestMatch input options t).best = none ∧
      (findBestMatch input options t).score = 0 := by
  rw [findBestMatch_eq]
  rcases hh : (sortDescBy ScoredOption.score (scoresList input options)).head?
    with - | b
  · exact ⟨rfl, rfl⟩
  · obtain ⟨hbmem, -⟩ := sorted_head_max input options b hh
    obtain ⟨hbo, hbs⟩ := (mem_scoresList input options b).mp hbmem
    dsimp only
    rw [if_neg (by rw [hbs]; exact not_le.mpr (hbelow b.option hbo))]
    exact ⟨rfl, rfl⟩

/-- C4: `findBestMatch` returns a null match and score 0 exactly when every
option scores strictly below the threshold; otherwise it returns an option of
maximal score together with that score; and `allMatches` contains exactly the
scored options at or above the threshold. -/
theorem claim_C4 (input : List Char) (options : List (List Char)) (t : ℚ) :
    ((∀ o ∈ options, scoreAgainst input o < t) →
      (findBestMatch input options t).best = none ∧
        (findBestMatch input options t).score = 0) ∧
    ((∃ o ∈ options, t ≤ scoreAgainst input o) →
      ∃ o ∈ options, (findBestMatch input options t).best = some o ∧
        (findBestMatch input options t).score = scoreAgainst input o ∧
        ∀ o' ∈ options, scoreAgainst input o' ≤ scoreAgainst input o) ∧
    (∀ (o : List Char) (s : ℚ),
      ScoredOption.mk o s ∈ (findBestMatch input options t).allMatches ↔
        o ∈ options ∧ s = scoreAgainst input o ∧ t ≤ s) := by
  refine ⟨findBestMatch_below_threshold input options t, ?_, ?_⟩
  · rintro ⟨o0, ho0, ht0⟩
    rw [findBestMatch_eq]
    rcases hh : (sortDescBy ScoredOption.score (scoresList input options)).head?
      with - | b
    · exfalso
      have : sortDescBy ScoredOption.score (scoresList input options) = [] := by
        rcases hs : sortDescBy ScoredOption.score (scoresList input options)
          with - | ⟨x, xs⟩
        · rfl
        · rw [hs] at hh
          exact absurd hh (by simp)
      have hnil : scoresList input options = [] := by
        have hp := (perm_sortDescBy ScoredOption.score
          (scoresList input options)).length_eq
        rw [this] at hp
        exact List.length_eq_zero.mp hp.symm
      have : ScoredOption.mk o0 (scoreAgainst input o0) ∈ scoresList input options :=
        (mem_scoresList input options _).mpr ⟨ho0, rfl⟩
      rw [hnil] at this
      exact absurd this (by simp)
    · obtain ⟨hbmem, hbmax⟩ := sorted_head_max input options b hh
      obtain ⟨hbo, hbs⟩ := (mem_scoresList input options b).mp hbmem
      have hmax0 : scoreAgainst input o0 ≤ b.score :=
        hbmax (ScoredOption.mk o0 (scoreAgainst input o0))
          ((mem_scoresList input options
            (ScoredOption.mk o0 (scoreAgainst input o0))).mpr ⟨ho0, rfl⟩)
      dsimp only
      rw [if_pos (ht0.trans hmax0)]
      refine ⟨b.option, hbo, rfl, hbs, ?_⟩
      intro o' ho'
      have := hbmax (ScoredOption.mk o' (scoreAgainst input o'))
        ((mem_scoresList input options
          (ScoredOption.mk o' (scoreAgainst input o'))).mpr ⟨ho', rfl⟩)
      rwa [hbs] at this
  · intro o s
    have hall : (findBestMatch input options t).allMatches =
        (sortDescBy ScoredOption.score (scoresList input options)).filter
          fun x => t ≤ x.score := by
      rw [findBestMatch_eq]
      rcases (sortDescBy ScoredOption.score (scoresList input options)).head?
        with - | b
      · rfl
      · dsimp only
        split <;> rfl
    rw [hall, List.mem_filter,
      (perm_sortDescBy ScoredOption.score (scoresList input options)).mem_iff,
      mem_scoresList]
    constructor
    · rintro ⟨⟨ho, hs⟩, hts⟩
      exact ⟨ho, hs, by rwa [decide_eq_true_iff] at hts⟩
    · rintro ⟨ho, hs, hts⟩
      exact ⟨⟨ho, hs⟩, by rwa [decide_eq_true_iff]⟩

/-- C4 witness: with options `["go", "stop"]` and threshold `1/2`, the input
`"go"` clears the threshold and `findBestMatch` returns `"go"` with its
maximal score 1. -/
theorem claim_C4_witness :
    ((1 : ℚ)/2 ≤ scoreAgainst (strL "go") (strL "go")) ∧
    ∃ o ∈ [strL "go", strL "stop"],
      (findBestMatch (strL "go") [strL "go", strL "stop"] (1/2)).best = some o ∧
      (findBestMatch (strL "go") [strL "go", strL "stop"] (1/2)).score =
        scoreAgainst (strL "go") o ∧
      ∀ o' ∈ [strL "go", strL "stop"],
        scoreAgainst (strL "go") o' ≤ scoreAgainst (strL "go") o := by
  have h : (1 : ℚ)/2 ≤ scoreAgainst (strL "go") (strL "go") := by decide
  exact ⟨h, (claim_C4 (strL "go") [strL "go", strL "stop"] (1/2)).2.1
    ⟨strL "go", by simp, h⟩⟩

/-- C8: `matchContactName` strips one leading call verb (followed by
whitespace) from the lowercased trimmed input, delegates the remainder to
`findBestMatch` against the contact names, and returns a null name with
confidence 0 whenever no contact name reaches the threshold. -/
theorem claim_C8 (input : List Char) (names : List (List Char)) (t : ℚ) :
    (matchContactName input names t =
      ⟨(findBestMatch (trimStr (stripCallVerb (trimStr (toLowerStr input))))
          names t).best,
        (findBestMatch (trimStr (stripCallVerb (trimStr (toLowerStr input))))
          names t).score⟩) ∧
    (∀ verb ∈ callVerbs, ∀ rest : List Char,
      stripCallVerb (verb ++ ' ' :: rest) = rest.dropWhile isWsChar) ∧
    ((∀ nm ∈ names,
        scoreAgainst (trimStr (stripCallVerb (trimStr (toLowerStr input)))) nm < t) →
      matchContactName input names t = ⟨none, 0⟩) := by
  refine ⟨rfl, ?_, ?_⟩
  · intro verb hv rest
    simp only [callVerbs, List.mem_cons, List.not_mem_nil, or_false] at hv
    rcases hv with rfl | rfl | rfl | rfl <;> rfl
  · intro hbelow
    obtain ⟨h1, h2⟩ := findBestMatch_below_threshold
      (trimStr (stripCallVerb (trimStr (toLowerStr input)))) names t hbelow
    show ContactMatchResult.mk
      (findBestMatch (trimStr (stripCallVerb (trimStr (toLowerStr input))))
        names t).best
      (findBestMatch (trimStr (stripCallVerb (trimStr (toLowerStr input))))
        names t).score = ⟨none, 0⟩
    rw [h1, h2]

/-- C8 witness: `"call bob"` strips to `"bob"`; against the single contact
name `"xavier"` and threshold `9/10` nothing clears the threshold, so the
result is the null name with confidence 0. -/
theorem claim_C8_witness :
    stripCallVerb (strL "call" ++ ' ' :: strL "bob") =
      (strL "bob").dropWhile isWsChar ∧
    matchContactName (strL "call bob") [strL "xavier"] (9/10) = ⟨none, 0⟩ := by
  constructor
  · exact (claim_C8 (strL "call bob") [strL "xavier"] (9/10)).2.1
      (strL "call") (by simp [callVerbs]) (strL "bob")
  · exact (claim_C8 (strL "call bob") [strL "xavier"] (9/10)).2.2
      (by decide)

/-- C3: `parseComplexCommand` resolves the action through `matchCommand` at
threshold `0.65` over the normalized input; with no match it returns the
all-null/zero record; on a multi-word input the parameter is the word-set
difference of the input words and the matched alias's words joined by single
spaces (`null` when empty); a single-word input yields a null parameter. -/
theorem claim_C3 (input : List Char) (cmds : List CommandDefinition) :
    (matchCommand (trimStr (toLowerStr input)) cmds (65/100) = none →
      parseComplexCommand input cmds = ⟨none, none, 0⟩) ∧
    (∀ am, matchCommand (trimStr (toLowerStr input)) cmds (65/100) = some am →
      (1 < (splitWs (trimStr (toLowerStr input))).length →
        parseComplexCommand input cmds =
          ⟨some am.command,
            (if List.intercalate (strL " ")
                ((splitWs (trimStr (toLowerStr input))).filter
                  fun w => w ∉ splitWs (toLowerStr am.matchedPhrase)) = []
            then none
            else some (List.intercalate (strL " ")
              ((splitWs (trimStr (toLowerStr input))).filter
                fun w => w ∉ splitWs (toLowerStr am.matchedPhrase)))),
            am.confidence⟩) ∧
      ((splitWs (trimStr (toLowerStr input))).length ≤ 1 →
        parseComplexCommand input cmds =
          ⟨some am.command, none, am.confidence⟩)) := by
  constructor
  · intro h
    simp only [parseComplexCommand, h]
  · intro am h
    constructor
    · intro hlen
      simp only [parseComplexCommand, h]
      rw [if_pos hlen]
    · intro hlen
      simp only [parseComplexCommand, h]
      rw [if_neg (not_lt.mpr hlen)]

/-- C3 witness: with catalog `[{command: "nav", aliases: ["go"]}]`, the
multi-word input `"go home"` resolves (via the per-word stage, confidence 1,
matched phrase `"go"`) and the parameter is the remaining word `"home"`. -/
theorem claim_C3_witness :
    matchCommand (trimStr (toLowerStr (strL "go home")))
      [⟨strL "nav", [strL "go"], []⟩] (65/100) =
      some ⟨strL "nav", 1, strL "go", none⟩ ∧
    parseComplexCommand (strL "go home") [⟨strL "nav", [strL "go"], []⟩] =
      ⟨some (strL "nav"), some (strL "home"), 1⟩ := by
  have h : matchCommand (trimStr (toLowerStr (strL "go home")))
      [⟨strL "nav", [strL "go"], []⟩] (65/100) =
      some ⟨strL "nav", 1, strL "go", none⟩ := by decide
  refine ⟨h, ?_⟩
  have happ := ((claim_C3 (strL "go home") [⟨strL "nav", [strL "go"], []⟩]).2
    ⟨strL "nav", 1, strL "go", none⟩ h).1 (by decide)
  exact happ.trans (by decide)

/-! ## `getSuggestions` characterization -/

/-- The scored suggestion list `getSuggestions` builds (every alias of every
command, scored by `fuzzyMatchPhonetic` at threshold `0.3`). -/
def suggestionList (input : List Char) (cmds : List CommandDefinition) :
    List SuggestionEntry :=
  cmds.flatMap fun cmd => cmd.aliases.map fun al =>
    SuggestionEntry.mk al
      (fuzzyMatchPhonetic (trimStr (toLowerStr input)) al (3/10)).score

theorem suggestionList_eq_map (input : List Char)
    (cmds : List CommandDefinition) :
    suggestionList input cmds =
      (cmds.flatMap CommandDefinition.aliases).map fun al =>
        SuggestionEntry.mk al
          (fuzzyMatchPhonetic (trimStr (toLowerStr input)) al (3/10)).score :=
  (List.map_flatMap _ _ _).symm

theorem getSuggestions_eq (input : List Char) (cmds : List CommandDefinition)
    (n : Nat) :
    getSuggestions input cmds n =
      ((sortDescBy SuggestionEntry.score (suggestionList input cmds)).take n).map
        SuggestionEntry.aliasText := rfl

/-- C10 (amended): `getSuggestions` applies no threshold filter — it returns
exactly `min maxSuggestions (total number of aliases)` alias strings, every
returned string is an alias of the catalog, and the returned entries are a
top-`N` slice by score of the full scored alias list.  The original claim's
parenthetical is false (see the counterexample): the `0.3` threshold passed
to `fuzzyMatchPhonetic` does affect the reported score, because when the
plain similarity is at or above the threshold the phonetic maximum is
skipped. -/
theorem claim_C10 (input : List Char) (cmds : List CommandDefinition)
    (n : Nat) :
    (getSuggestions input cmds n).length =
      min n (cmds.flatMap CommandDefinition.aliases).length ∧
    (∀ a ∈ getSuggestions input cmds n,
      a ∈ cmds.flatMap CommandDefinition.aliases) ∧
    ∃ chosen rest : List SuggestionEntry,
      chosen.map SuggestionEntry.aliasText = getSuggestions input cmds n ∧
      (chosen ++ rest).Perm (suggestionList input cmds) ∧
      ∀ p ∈ chosen, ∀ q ∈ rest, q.score ≤ p.score := by
  have hperm := perm_sortDescBy SuggestionEntry.score (suggestionList input cmds)
  have hpair := pairwise_sortDescBy SuggestionEntry.score (suggestionList input cmds)
  refine ⟨?_, ?_, ?_⟩
  · rw [getSuggestions_eq, List.length_map, List.length_take, hperm.length_eq,
      suggestionList_eq_map, List.length_map]
  · intro a ha
    rw [getSuggestions_eq] at ha
    obtain ⟨p, hp, rfl⟩ := List.mem_map.mp ha
    have hp1 : p ∈ sortDescBy SuggestionEntry.score (suggestionList input cmds) :=
      List.mem_of_mem_take hp
    have hp2 : p ∈ suggestionList input cmds := hperm.subset hp1
    rw [suggestionList_eq_map] at hp2
    obtain ⟨al, hal, rfl⟩ := List.mem_map.mp hp2
    exact hal
  · refine ⟨(sortDescBy SuggestionEntry.score (suggestionList input cmds)).take n,
      (sortDescBy SuggestionEntry.score (suggestionList input cmds)).drop n,
      (getSuggestions_eq input cmds n).symm, ?_, ?_⟩
    · rw [List.take_append_drop]
      exact hperm
    · have hp := hpair
      rw [← List.take_append_drop n
        (sortDescBy SuggestionEntry.score (suggestionList input cmds))] at hp
      exact (List.pairwise_append.mp hp).2.2

/-- C10 counterexample: the threshold passed to `fuzzyMatchPhonetic` does
affect the reported score, not only the match flag: for input `"led"` and
alias `"red"` the score is `2/3` at threshold `0.3` (early return with the
plain similarity) but `1` at threshold `0.9` (maximum with the phonetic
score).  Consequently `getSuggestions` ranks by the threshold-shaped scores:
with aliases `["red", "ledx"]` and input `"led"` the top suggestion is
`"ledx"` (plain score `3/4`), not the phonetically identical `"red"`. -/
theorem claim_C10_counterexample :
    (fuzzyMatchPhonetic (strL "led") (strL "red") (3/10)).score = 2/3 ∧
    (fuzzyMatchPhonetic (strL "led") (strL "red") (9/10)).score = 1 ∧
    getSuggestions (strL "led") [⟨strL "c", [strL "red", strL "ledx"], []⟩] 1 =
      [strL "ledx"] := by
  refine ⟨by decide, by decide, by decide⟩

/-- C10 witness: the amended theorem applied at the concrete input `"led"`
with one command and two aliases: the suggestion list has length
`min 1 2 = 1` and the suggested string is an alias of the catalog. -/
theorem claim_C10_witness :
    (getSuggestions (strL "led") [⟨strL "c", [strL "red", strL "ledx"], []⟩]
      1).length = min 1
        (([⟨strL "c", [strL "red", strL "ledx"], []⟩] :
          List CommandDefinition).flatMap CommandDefinition.aliases).length ∧
    strL "ledx" ∈ getSuggestions (strL "led")
      [⟨strL "c", [strL "red", strL "ledx"], []⟩] 1 ∧
    strL "ledx" ∈ ([⟨strL "c", [strL "red", strL "ledx"], []⟩] :
      List CommandDefinition).flatMap CommandDefinition.aliases := by
  have hm : strL "ledx" ∈ getSuggestions (strL "led")
      [⟨strL "c", [strL "red", strL "ledx"], []⟩] 1 := by decide
  exact ⟨(claim_C10 (strL "led") [⟨strL "c", [strL "red", strL "ledx"], []⟩] 1).1,
    hm,
    (claim_C10 (strL "led") [⟨strL "c", [strL "red", strL "ledx"], []⟩] 1).2.1
      (strL "ledx") hm⟩

end BrailleWalk
